import Mathlib

/-!
Verification of the line-buffering / telnet-stripping proxy core
(`core/proxy.py`).  Shallow embedding: bytes are `Nat` values below 256,
buffers are `List Nat`, and the transport is modelled by an explicit
oracle of outcomes, one per system call, so that every code path of the
Python source is represented by a terminating Lean function.
-/

namespace Proxy

/-- Default line separator byte (LINE_SEPARATOR = 10 in the source). -/
def LINE_SEPARATOR : Nat := 10

/-- Maximum bytes requested per recv call (RECV_MAX = 4096 in the source). -/
def RECV_MAX : Nat := 4096

/-!
## Telnet stripping (LineBufferingSocketContainer.read, the scanning loop)

The source scans the receive buffer byte by byte with a one-bit mode
`in_command`.  Outside command mode, byte 255 (IAC) enters command mode
and is dropped; any other byte is copied.  Inside command mode, 255 is
emitted as a literal byte and command mode ends; bytes 251..254
(WILL/WONT/DO/DONT) are consumed with command mode kept on; any other
byte is consumed and command mode ends.
-/

/-- The stripping loop of `read`: given the starting mode and the buffer,
return the stripped output and the final mode. -/
def stripGo : Bool → List Nat → List Nat × Bool
  | ic, [] => ([], ic)
  | true, b :: rest =>
    if b = 255 then
      let r := stripGo false rest
      (255 :: r.1, r.2)
    else if 251 ≤ b ∧ b ≤ 254 then
      stripGo true rest
    else
      stripGo false rest
  | false, b :: rest =>
    if b = 255 then
      stripGo true rest
    else
      let r := stripGo false rest
      (b :: r.1, r.2)

/-- Stripping started outside command mode, output only
(the mode `read` always starts in). -/
def stripAll (bs : List Nat) : List Nat := (stripGo false bs).1

/-!
## Line splitting (the `while self.linesep in stripped` loop of `read`)

The loop repeatedly takes the shortest separator-terminated head off the
stripped bytes (each produced line keeps its trailing separator) and
leaves the unterminated remainder.
-/

/-- Split stripped bytes into separator-terminated lines plus remainder.
The first argument accumulates the bytes of the line being assembled. -/
def splitLinesGo (sep : Nat) : List Nat → List Nat → List (List Nat) × List Nat
  | cur, [] => ([], cur)
  | cur, b :: rest =>
    if b = sep then
      let p := splitLinesGo sep [] rest
      ((cur ++ [b]) :: p.1, p.2)
    else
      splitLinesGo sep (cur ++ [b]) rest

/-- The per-connection buffers of `LineBufferingSocketContainer` that `read`
touches: the inbound buffer and the outbound buffer (the latter because a
dangling telnet command byte is re-queued there by the source). -/
structure RWState where
  recvBuf : List Nat
  sendBuf : List Nat
deriving DecidableEq, Repr

/-- One `read` call after the recv loop has produced `data`: append to the
inbound buffer, strip telnet codes, split into lines, retain the remainder,
and, when stripping ended inside a command, append a single IAC byte to the
outbound buffer (the quirk at the end of `read` in the source). -/
def readOnce (sep : Nat) (st : RWState) (data : List Nat) :
    List (List Nat) × RWState :=
  let p := stripGo false (st.recvBuf ++ data)
  let q := splitLinesGo sep [] p.1
  (q.1, { recvBuf := q.2,
          sendBuf := if p.2 then st.sendBuf ++ [255] else st.sendBuf })

/-- Deliver a byte stream in successive `read` calls, one chunk per call,
threading the buffers, and concatenate all complete lines produced. -/
def runReads (sep : Nat) : RWState → List (List Nat) → List (List Nat)
  | _, [] => []
  | st, chunk :: rest =>
    let p := readOnce sep st chunk
    p.1 ++ runReads sep p.2 rest

/-!
## The recv loop and its exception handling (`read`, top half)

Each recv either returns a chunk of bytes or raises.  The source drains
bursts by looping while a full-size chunk is returned; a zero-length chunk
means the remote closed.  The except clauses are tried in source order:
first BlockingIOError / SSLWantReadError / SSLWantWriteError (pass), then
OSError (log only), then ConnectionResetError (set eof).  In Python,
ConnectionResetError, BlockingIOError and ssl.SSLError are all subclasses
of OSError, which the dispatch below encodes.
-/

/-- Outcome of one `socket.recv` call. -/
inductive RecvOutcome where
  | data (chunk : List Nat)
  | blocking
  | sslWantRead
  | sslWantWrite
  | connectionReset
  | otherOSError
deriving DecidableEq, Repr

/-- Whether the raised exception is an OSError in the Python class
hierarchy (ConnectionResetError, BlockingIOError and ssl.SSLError all
inherit from OSError). -/
def isPyOSError : RecvOutcome → Bool
  | .data _ => false
  | .blocking => true
  | .sslWantRead => true
  | .sslWantWrite => true
  | .connectionReset => true
  | .otherOSError => true

/-- The except-clause chain of `read`, in source order, applied to a raised
exception: returns the value of `has_eof` after the handler runs. -/
def handleRecvExc (e : RecvOutcome) (hasEof : Bool) : Bool :=
  if e = .blocking ∨ e = .sslWantRead ∨ e = .sslWantWrite then
    hasEof
  else if isPyOSError e then
    hasEof
  else if e = .connectionReset then
    true
  else
    hasEof

/-- The recv loop of `read`: drain outcomes until a short read, a zero
read (eof) or an exception.  Returns the accumulated bytes and `has_eof`. -/
def recvLoop : List RecvOutcome → List Nat → List Nat × Bool
  | [], acc => (acc, false)
  | o :: rest, acc =>
    match o with
    | .data chunk =>
      if chunk.length < RECV_MAX then
        (acc ++ chunk, decide (chunk.length = 0))
      else
        recvLoop rest (acc ++ chunk)
    | e => (acc, handleRecvExc e false)

/-- A whole `read` call: run the recv loop against the transport oracle,
then parse.  Returns (lines, new buffers, has_eof). -/
def readFull (sep : Nat) (st : RWState) (outcomes : List RecvOutcome) :
    List (List Nat) × RWState × Bool :=
  let r := recvLoop outcomes []
  let p := readOnce sep st r.1
  (p.1, p.2, r.2)

/-!
## Outbound flush (`LineBufferingSocketContainer.flush`)

The flush loop runs while the send buffer is nonempty and contains the
separator.  Each iteration offers the bytes up to and including the FIRST
separator to `socket.send`; the transport may accept any number of bytes
up to that (a short send), raise a would-block condition (break), or raise
another OSError (break).  The accepted count is dropped from the front of
the buffer.  The oracle lists one outcome per send call; an exhausted
oracle ends the loop like a would-block.
-/

/-- Outcome of one `socket.send` call. -/
inductive SendResult where
  | accepted (n : Nat)
  | wouldBlock
  | osError
deriving DecidableEq, Repr

/-- The chunk offered to one send call: the shortest head of the buffer
ending with the separator (`buffer[:t+1]` with `t` the first separator
index). -/
def firstChunk (sep : Nat) : List Nat → List Nat
  | [] => []
  | b :: rest => if b = sep then [b] else b :: firstChunk sep rest

/-- The flush loop.  Returns the remaining send buffer and the bytes that
actually went out on the wire, in order. -/
def flushGo (sep : Nat) : List SendResult → List Nat → List Nat × List Nat
  | [], buf => (buf, [])
  | r :: rest, buf =>
    if sep ∈ buf then
      match r with
      | .accepted n =>
        let k := min n (firstChunk sep buf).length
        let p := flushGo sep rest (buf.drop k)
        (p.1, buf.take k ++ p.2)
      | .wouldBlock => (buf, [])
      | .osError => (buf, [])
    else
      (buf, [])

/-- The bytes of the buffer after its LAST separator: the unterminated
tail that flush must never transmit. -/
def unterminated (sep : Nat) (l : List Nat) : List Nat :=
  (l.reverse.takeWhile (fun b => b ≠ sep)).reverse

/-- Whether a transmitted byte sequence ends exactly at a separator
boundary (empty, or last byte is the separator). -/
def endsWithSep (sep : Nat) (w : List Nat) : Bool :=
  w.isEmpty || (w.getLast? == some sep)

/-!
## Writes and their assertion preconditions

`write_str` / `write_line` / `write` all append to the send buffer and
then call `flush`, whose first two statements are
`assert self.socket != None` and `assert self.connected`.  The append
happens before the assertions run, and an assertion failure aborts the
call before any send is attempted.
-/

/-- The connection state that writes touch: the send buffer, whether a
socket object is attached, and the connected flag. -/
structure Conn where
  sendBuf : List Nat
  hasSocket : Bool
  connected : Bool
deriving DecidableEq, Repr

/-- A write call (`write_str` / `write_line` / `write`, already encoded to
bytes): append to the send buffer, then run `flush`.  Returns the new
connection state, the wire bytes, and whether an assertion failed. -/
def writeBytes (sep : Nat) (oracle : List SendResult) (c : Conn)
    (data : List Nat) : Conn × List Nat × Bool :=
  let buf := c.sendBuf ++ data
  if c.hasSocket = true ∧ c.connected = true then
    let p := flushGo sep oracle buf
    ({ c with sendBuf := p.1 }, p.2, false)
  else
    ({ c with sendBuf := buf }, [], true)

/-- The error-reply helper `LocalClient.tell_err`: writes
`"!! " + msg + CRLF` through `write_str`. -/
def tell_err (sep : Nat) (oracle : List SendResult) (c : Conn)
    (msgBytes : List Nat) : Conn × List Nat × Bool :=
  writeBytes sep oracle c ([33, 33, 32] ++ msgBytes ++ [13, 10])

/-!
## Client line dispatch (`Proxy.handle_line_client`)

The handler folds the line through the filters (an exception leaves the
line unchanged; a filter returning None aborts the handler), then builds
`s` from the ORIGINAL `line` argument, strips CRLF / LF, checks the
command character, and either dispatches a command parsed from `s` or
passes the ORIGINAL `line` to `handle_data`.
-/

/-- Result of one client filter application: a transformed line, no value
(suppression), or a raised exception. -/
inductive FilterOut where
  | ok (l : List Char)
  | noValue
  | raised

/-- A client-side filter (its `from_client` method). -/
def CFilter := List Char → FilterOut

/-- The filter fold of `handle_line_client`: an exception is logged and
the line keeps its previous value; a None return suppresses the line. -/
def foldFilters : List CFilter → List Char → Option (List Char)
  | [], ln => some ln
  | f :: fs, ln =>
    match f ln with
    | .ok l => foldFilters fs l
    | .noValue => none
    | .raised => foldFilters fs ln

/-- The command character (COMMAND_PREFIX = the comma in the source). -/
def commandChar : Char := ','

/-- Remove every CRLF pair, scanning left to right
(Python `replace(CRLF, empty)`). -/
def removeCRLF : List Char → List Char
  | [] => []
  | '\r' :: '\n' :: rest => removeCRLF rest
  | c :: rest => c :: removeCRLF rest

/-- The line-terminator stripping applied to the dispatched string:
remove CRLF pairs, then remove every remaining LF. -/
def stripNL (l : List Char) : List Char :=
  (removeCRLF l).filter (fun c => c ≠ '\n')

/-- Split at the first space: the characters before it, and the characters
after it when one exists (mirrors `s.index(chr32)` slicing). -/
def splitAtSpace : List Char → List Char × Option (List Char)
  | [] => ([], none)
  | c :: rest =>
    if c = ' ' then ([], some rest)
    else
      let p := splitAtSpace rest
      (c :: p.1, p.2)

/-- What `handle_line_client` does with a non-suppressed line. -/
inductive ClientAction where
  | suppressed
  | command (cmd args : List Char)
  | unknownCmd (cmd : List Char)
  | deliver (line : List Char)
deriving DecidableEq, Repr

/-- Dispatch of the stripped string: command parse and lookup when it
starts with the command character, otherwise passthrough of the raw
line via `handle_data`. -/
def dispatchLine (cmds : List (List Char)) (line : List Char) : ClientAction :=
  let s := stripNL line
  match s with
  | [] => .deliver line
  | c :: _ =>
    if c = commandChar then
      let p := splitAtSpace (s.drop 1)
      let cmd := p.1
      let args := match p.2 with | some a => a | none => []
      if cmd ∈ cmds then .command cmd args else .unknownCmd cmd
    else
      .deliver line

/-- `Proxy.handle_line_client`: fold the filters over the line, return
early when a filter yields no value, and otherwise dispatch the ORIGINAL
line argument (the folded value is not consulted further in the source). -/
def handle_line_client (fs : List CFilter) (cmds : List (List Char))
    (line : List Char) : ClientAction :=
  match foldFilters fs line with
  | none => .suppressed
  | some _ => dispatchLine cmds line

/-!
## Filter attachment (`FilteredSocket.add_filters`)

The specification value comes from JSON; entries must be two-element
lists of a string and a dict.  The source validates and APPENDS inside
one loop, so filters from entries before the first bad one stay attached
when the error is raised.
-/

/-- The shape of a decoded JSON value, as far as `add_filters` inspects
it: a string, a dict, a list, or anything else. -/
inductive PyVal where
  | str (s : String)
  | dict
  | listv (l : List PyVal)
  | other
deriving Repr

/-- The per-entry loop of `add_filters`: `cur` is `self.filters`
(instances stand for the name of the class that built them).  Returns the
final filter list and the raised error message, when one was raised. -/
def addFiltersGo (protos : List String) :
    List PyVal → List String → List String × Option String
  | [], cur => (cur, none)
  | f :: rest, cur =>
    match f with
    | .listv [.str name, .dict] =>
      if name ∈ protos then
        addFiltersGo protos rest (cur ++ [name])
      else
        (cur, some "no such filter")
    | _ => (cur, some "bad filter entry format")

/-- `FilteredSocket.add_filters`: reject a non-list specification, then
run the entry loop. -/
def add_filters (fspec : PyVal) (protos : List String) (cur : List String) :
    List String × Option String :=
  match fspec with
  | .listv fs => addFiltersGo protos fs cur
  | _ => (cur, some "filters must be a list")

/-- Whether one entry passes every check of the loop body. -/
def entryOk (protos : List String) (f : PyVal) : Bool :=
  match f with
  | .listv [.str name, .dict] => decide (name ∈ protos)
  | _ => false

/-- The name carried by a well-formed entry (placeholder otherwise). -/
def entryName : PyVal → String
  | .listv (.str name :: _) => name
  | _ => ""

/-- The names of the entries before the first failing one: exactly the
filters the loop has appended when it raises. -/
def validNames (protos : List String) : List PyVal → List String
  | [] => []
  | f :: rest =>
    if entryOk protos f then entryName f :: validNames protos rest else []

/-!
## Connection start (`Proxy.start_connection`)

Guarded by the connecting flag and the connected flag; an idle server is
marked connecting and one background attempt is launched (`attempts`
counts thread launches); otherwise the call returns the failure value
and changes nothing.
-/

/-- The fields of `RemoteServer` that `start_connection` consults, plus a
count of launched background connection attempts. -/
structure ServerConn where
  connecting : Bool
  connected : Bool
  attempts : Nat
deriving DecidableEq, Repr

/-- `Proxy.start_connection`. -/
def start_connection (s : ServerConn) : ServerConn × Bool :=
  if s.connecting = false ∧ s.connected = false then
    ({ s with connecting := true, attempts := s.attempts + 1 }, true)
  else
    (s, false)

/-!
## Session registry (`Proxy.run`, `handle_line_auth`, `do_start_connection`)

The registry keeps `socket_wrappers` (a dict keyed by stream handle) and
the three membership lists `server_sockets`, `unauthenticated_sockets`,
`client_sockets`.  Handles are abstracted to naturals.  Events are the
registry mutations the source performs while holding the mutex:

* `accept h` — `do_accept`: insert `h` into the wrapper dict and append
  it to the unauthenticated list;
* `authLine h ok` — `handle_line_auth` on a line from `h`, with `ok` the
  result of the password check; the dispatch loop of `run` only invokes
  the handler while `h` is a member of the unauthenticated list, which
  the guard reproduces; success removes every occurrence of `h` from the
  unauthenticated list and appends it to the client list;
* `clientLine h` / `serverLine h` — the other two line handlers, which do
  not change the registry;
* `eofClose h` — the end-of-stream branch of `run`: delete the first
  occurrence of `h` from each membership list holding it and remove `h`
  from the wrapper dict;
* `attachServer h` — the mutex-held tail of `do_start_connection`: insert
  `h` into the wrapper dict and append it to the server list.
-/

/-- The registry state: wrapper-dict keys and the three membership lists. -/
structure PState where
  wrappers : List Nat
  servers : List Nat
  unauth : List Nat
  clients : List Nat
deriving DecidableEq, Repr

/-- Dict insertion on the key list: a repeated key is not duplicated. -/
def insertKey (h : Nat) (l : List Nat) : List Nat :=
  if h ∈ l then l else l ++ [h]

/-- Registry events (the mutations listed above). -/
inductive PEvent where
  | accept (h : Nat)
  | authLine (h : Nat) (ok : Bool)
  | clientLine (h : Nat)
  | serverLine (h : Nat)
  | eofClose (h : Nat)
  | attachServer (h : Nat)
deriving DecidableEq, Repr

/-- One registry mutation, modelled from the source lines cited above. -/
def step (S : PState) : PEvent → PState
  | .accept h =>
    { S with wrappers := insertKey h S.wrappers, unauth := S.unauth ++ [h] }
  | .authLine h ok =>
    if h ∈ S.unauth ∧ ok = true then
      { S with unauth := S.unauth.filter (fun x => x ≠ h),
               clients := S.clients ++ [h] }
    else S
  | .clientLine _ => S
  | .serverLine _ => S
  | .eofClose h =>
    { wrappers := S.wrappers.erase h, servers := S.servers.erase h,
      unauth := S.unauth.erase h, clients := S.clients.erase h }
  | .attachServer h =>
    { S with wrappers := insertKey h S.wrappers, servers := S.servers ++ [h] }

/-- Processing a readiness batch: the events in order. -/
def stepBatch (S : PState) (es : List PEvent) : PState := es.foldl step S

/-- Freshness of handles produced by the operating system: `accept` and a
successful connect hand the registry a stream object that is not already
tracked.  All other events are unconstrained. -/
def ValidEvent (S : PState) : PEvent → Prop
  | .accept h => h ∉ S.wrappers ∧ h ∉ S.servers ∧ h ∉ S.unauth ∧ h ∉ S.clients
  | .attachServer h => h ∉ S.wrappers ∧ h ∉ S.servers ∧ h ∉ S.unauth ∧ h ∉ S.clients
  | _ => True

/-- Validity of a batch, threaded through the intermediate states. -/
def ValidBatch : PState → List PEvent → Prop
  | _, [] => True
  | S, e :: es => ValidEvent S e ∧ ValidBatch (step S e) es

/-- In how many of the three membership sets does `h` occur. -/
def setCount (S : PState) (h : Nat) : Nat :=
  (if h ∈ S.servers then 1 else 0) + (if h ∈ S.unauth then 1 else 0) +
    (if h ∈ S.clients then 1 else 0)

/-- A handle the registry tracks anywhere. -/
def Tracked (S : PState) (h : Nat) : Prop :=
  h ∈ S.wrappers ∨ h ∈ S.servers ∨ h ∈ S.unauth ∨ h ∈ S.clients

/-- The registry invariant: the lists are duplicate-free and every
tracked handle is a wrapper-dict key belonging to exactly one of the
three membership sets. -/
def Inv (S : PState) : Prop :=
  S.wrappers.Nodup ∧ S.servers.Nodup ∧ S.unauth.Nodup ∧ S.clients.Nodup ∧
    ∀ h, Tracked S h → h ∈ S.wrappers ∧ setCount S h = 1

/-- A concrete client filter that rewrites every line to the text
`,help`: used to separate the folded value from the dispatched value. -/
def cexFilter : CFilter := fun _ => FilterOut.ok [',', 'h', 'e', 'l', 'p']

instance (S : PState) : (e : PEvent) → Decidable (ValidEvent S e)
  | .accept _ => inferInstanceAs (Decidable (_ ∧ _ ∧ _ ∧ _))
  | .authLine _ _ => inferInstanceAs (Decidable True)
  | .clientLine _ => inferInstanceAs (Decidable True)
  | .serverLine _ => inferInstanceAs (Decidable True)
  | .eofClose _ => inferInstanceAs (Decidable True)
  | .attachServer _ => inferInstanceAs (Decidable (_ ∧ _ ∧ _ ∧ _))

instance validBatchDecidable (S : PState) (es : List PEvent) :
    Decidable (ValidBatch S es) :=
  match es with
  | [] => isTrue trivial
  | e :: es =>
    have : Decidable (ValidBatch (step S e) es) :=
      validBatchDecidable (step S e) es
    inferInstanceAs (Decidable (_ ∧ _))

instance (S : PState) : Decidable (Inv S) := by
  have : Inv S ↔
      (S.wrappers.Nodup ∧ S.servers.Nodup ∧ S.unauth.Nodup ∧
        S.clients.Nodup ∧
        ∀ h ∈ S.wrappers ++ S.servers ++ S.unauth ++ S.clients,
          h ∈ S.wrappers ∧ setCount S h = 1) := by
    unfold Inv Tracked
    simp only [List.mem_append]
    constructor
    · rintro ⟨a, b, c, d, e⟩
      exact ⟨a, b, c, d, fun h hh => e h (by tauto)⟩
    · rintro ⟨a, b, c, d, e⟩
      exact ⟨a, b, c, d, fun h hh => e h (by tauto)⟩
  exact decidable_of_iff _ this.symm

/-!
## Helper lemmas
-/

/-- Stripping distributes over append: the second part resumes in the
mode the first part ended in. -/
theorem stripGo_append (xs : List Nat) : ∀ (ic : Bool) (ys : List Nat),
    stripGo ic (xs ++ ys) =
      ((stripGo ic xs).1 ++ (stripGo (stripGo ic xs).2 ys).1,
        (stripGo (stripGo ic xs).2 ys).2) := by
  induction xs with
  | nil => intro ic ys; simp [stripGo]
  | cons b rest ih =>
    intro ic ys
    cases ic with
    | false =>
      by_cases h255 : b = 255
      · simp [stripGo, h255, ih]
      · simp [stripGo, h255, ih]
    | true =>
      by_cases h255 : b = 255
      · simp [stripGo, h255, ih]
      · by_cases hrange : 251 ≤ b ∧ b ≤ 254
        · simp [stripGo, h255, hrange, ih]
        · simp [stripGo, h255, hrange, ih]

/-!
## Claim C1 — the three-byte negotiation sequence
-/

/-- C1, counterexample: for W = 251 and O = 255 the stripper does NOT
remove all three bytes of IAC, W, O: the option byte 255 is re-read as an
IAC escape while command mode is still on, and a literal 255 is emitted. -/
theorem C1_cex :
    stripAll [255, 251, 255] = [255] ∧ stripAll [255, 251, 255] ≠ [] := by
  decide

/-- C1, amended: for W in 251..254 and an option byte O outside 251..255,
a three-byte IAC, W, O sequence reached outside command mode contributes
nothing to the stripped output and leaves command mode off, for any
surrounding contents. -/
theorem C1_thm (pre suf : List Nat) (W O : Nat)
    (hW1 : 251 ≤ W) (hW2 : W ≤ 254) (hO : O < 251)
    (hpre : (stripGo false pre).2 = false) :
    stripGo false (pre ++ ([255, W, O] ++ suf)) = stripGo false (pre ++ suf) := by
  have hW255 : ¬ W = 255 := by omega
  have hO255 : ¬ O = 255 := by omega
  have hO251 : ¬ 251 ≤ O := by omega
  have key : stripGo false ([255, W, O] ++ suf) = stripGo false suf := by
    simp [stripGo, hW255, hO255, hO251, hW1, hW2]
  rw [stripGo_append pre false ([255, W, O] ++ suf), hpre, key,
    stripGo_append pre false suf, hpre]

/-- C1, witness for the amended theorem at pre = [65], suf = [66, 10],
W = 252, O = 1. -/
theorem C1_wit :
    (stripGo false [65]).2 = false ∧
      stripGo false ([65] ++ ([255, 252, 1] ++ [66, 10])) =
        stripGo false ([65] ++ [66, 10]) :=
  ⟨by decide, C1_thm [65] [66, 10] 252 1 (by decide) (by decide) (by decide)
    (by decide)⟩

/-- takeWhile stops no later than an appended element falsifying the
predicate. -/
theorem takeWhile_append_stop (p : Nat → Bool) (a : Nat) (hpa : p a = false)
    (l r : List Nat) : List.takeWhile p (l ++ a :: r) = List.takeWhile p l := by
  induction l with
  | nil => simp [List.takeWhile_cons, hpa]
  | cons c l ih =>
    by_cases hc : p c = true
    · simp [List.takeWhile_cons, hc, ih]
    · simp [List.takeWhile_cons, hc]

/-- takeWhile ignores everything after a falsifying element inside the
first part. -/
theorem takeWhile_append_mem_stop (p : Nat → Bool) :
    ∀ (l l2 : List Nat), (∃ x ∈ l, p x = false) →
      List.takeWhile p (l ++ l2) = List.takeWhile p l := by
  intro l l2 h
  induction l with
  | nil => simp at h
  | cons c l ih =>
    by_cases hc : p c = true
    · have h' : ∃ x ∈ l, p x = false := by
        rcases h with ⟨x, hx, hpx⟩
        rcases List.mem_cons.mp hx with rfl | hx2
        · rw [hc] at hpx; cases hpx
        · exact ⟨x, hx2, hpx⟩
      simp [List.takeWhile_cons, hc, ih h']
    · simp [List.takeWhile_cons, hc]

/-- The unterminated tail is never longer than the buffer. -/
theorem length_unterminated_le (sep : Nat) (l : List Nat) :
    (unterminated sep l).length ≤ l.length := by
  unfold unterminated
  rw [List.length_reverse]
  calc (l.reverse.takeWhile fun b => b ≠ sep).length
      ≤ l.reverse.length := (List.takeWhile_sublist _).length_le
    _ = l.length := List.length_reverse l

/-- Prepending one byte to a buffer that still holds a separator does not
change the unterminated tail. -/
theorem unterminated_cons (sep b : Nat) (rest : List Nat) (h : sep ∈ rest) :
    unterminated sep (b :: rest) = unterminated sep rest := by
  unfold unterminated
  rw [List.reverse_cons]
  congr 1
  apply takeWhile_append_mem_stop
  exact ⟨sep, by simpa using h, by simp⟩

/-- The length of the first offered chunk never exceeds the buffer. -/
theorem firstChunk_length_le (sep : Nat) :
    ∀ buf : List Nat, (firstChunk sep buf).length ≤ buf.length := by
  intro buf
  induction buf with
  | nil => simp [firstChunk]
  | cons b rest ih =>
    by_cases hb : b = sep
    · simp [firstChunk, hb]
    · simp only [firstChunk, if_neg hb, List.length_cons]
      omega

/-- The first offered chunk is the head of the buffer. -/
theorem firstChunk_take (sep : Nat) :
    ∀ buf : List Nat, buf.take (firstChunk sep buf).length = firstChunk sep buf := by
  intro buf
  induction buf with
  | nil => simp [firstChunk]
  | cons b rest ih =>
    by_cases hb : b = sep
    · simp [firstChunk, hb]
    · simp [firstChunk, hb, List.take_succ_cons, ih]

/-- When the buffer holds a separator, the offered chunk ends with it. -/
theorem firstChunk_getLast (sep : Nat) :
    ∀ buf : List Nat, sep ∈ buf → (firstChunk sep buf).getLast? = some sep := by
  intro buf
  induction buf with
  | nil => intro h; simp at h
  | cons b rest ih =>
    intro h
    by_cases hb : b = sep
    · simp [firstChunk, hb]
    · have hrest : sep ∈ rest := by
        rcases List.mem_cons.mp h with h1 | h2
        · exact absurd h1.symm hb
        · exact h2
      have hne : firstChunk sep rest ≠ [] := by
        rcases rest with _ | ⟨c, cs⟩
        · simp at hrest
        · by_cases hc : c = sep <;> simp [firstChunk, hc]
      rw [firstChunk, if_neg hb]
      rw [show b :: firstChunk sep rest = [b] ++ firstChunk sep rest from rfl]
      rw [List.getLast?_append_of_ne_nil _ hne]
      exact ih hrest

/-- Dropping bytes from within the first offered chunk does not change
the unterminated tail. -/
theorem unterminated_drop (sep : Nat) :
    ∀ (buf : List Nat) (k : Nat), sep ∈ buf →
      k ≤ (firstChunk sep buf).length →
      unterminated sep (buf.drop k) = unterminated sep buf := by
  intro buf
  induction buf with
  | nil => intro k h; simp at h
  | cons b rest ih =>
    intro k hmem hk
    match k with
    | 0 => simp
    | k + 1 =>
      by_cases hb : b = sep
      · have hlen : (firstChunk sep (b :: rest)).length = 1 := by
          simp [firstChunk, hb]
        rw [hlen] at hk
        have hk0 : k = 0 := by omega
        subst hk0
        show unterminated sep (List.drop 1 (b :: rest)) = unterminated sep (b :: rest)
        rw [List.drop_succ_cons, List.drop_zero]
        unfold unterminated
        rw [List.reverse_cons]
        congr 1
        symm
        exact takeWhile_append_stop _ b (by simp [hb]) _ _
      · have hrest : sep ∈ rest := by
          rcases List.mem_cons.mp hmem with h1 | h2
          · exact absurd h1.symm hb
          · exact h2
        have hlen : (firstChunk sep (b :: rest)).length =
            (firstChunk sep rest).length + 1 := by
          simp [firstChunk, hb]
        rw [hlen] at hk
        rw [List.drop_succ_cons]
        rw [ih k hrest (by omega)]
        exact (unterminated_cons sep b rest hrest).symm

/-- Appending to a nonempty wire that ends at a separator keeps it ending
at a separator. -/
theorem endsWithSep_append (sep : Nat) (A w : List Nat)
    (hw : endsWithSep sep w = true) (hne : w ≠ []) :
    endsWithSep sep (A ++ w) = true := by
  unfold endsWithSep at hw ⊢
  rcases w with _ | ⟨c, cs⟩
  · exact absurd rfl hne
  · rw [show (c :: cs).isEmpty = false from rfl, Bool.false_or] at hw
    rw [List.getLast?_append_of_ne_nil A (by simp), hw, Bool.or_true]

/-- The offered chunk itself ends at the separator. -/
theorem endsWithSep_firstChunk (sep : Nat) (buf : List Nat) (h : sep ∈ buf) :
    endsWithSep sep (firstChunk sep buf) = true := by
  unfold endsWithSep
  rw [firstChunk_getLast sep buf h]
  simp

/-- The flush loop never transmits any byte of the buffer segment after
its last separator. -/
theorem flush_wire_le (sep : Nat) :
    ∀ (oracle : List SendResult) (buf : List Nat),
      (flushGo sep oracle buf).2.length + (unterminated sep buf).length ≤
        buf.length := by
  intro oracle
  induction oracle with
  | nil => intro buf; simpa [flushGo] using length_unterminated_le sep buf
  | cons r rest ih =>
    intro buf
    by_cases hm : sep ∈ buf
    · cases r with
      | accepted n =>
        simp only [flushGo, if_pos hm]
        have hk1 : min n (firstChunk sep buf).length ≤
            (firstChunk sep buf).length := min_le_right _ _
        have hk2 : min n (firstChunk sep buf).length ≤ buf.length :=
          le_trans hk1 (firstChunk_length_le sep buf)
        have hd := ih (buf.drop (min n (firstChunk sep buf).length))
        rw [unterminated_drop sep buf _ hm hk1, List.length_drop] at hd
        simp only [List.length_append, List.length_take]
        omega
      | wouldBlock =>
        simp only [flushGo, if_pos hm]
        simpa using length_unterminated_le sep buf
      | osError =>
        simp only [flushGo, if_pos hm]
        simpa using length_unterminated_le sep buf
    · simp only [flushGo, if_neg hm]
      simpa using length_unterminated_le sep buf

/-- When the transport accepts every offered chunk in full, the wire ends
at a separator boundary. -/
theorem flush_full_ends (sep : Nat) :
    ∀ (oracle : List SendResult) (buf : List Nat),
      (∀ n, SendResult.accepted n ∈ oracle → buf.length ≤ n) →
      endsWithSep sep (flushGo sep oracle buf).2 = true := by
  intro oracle
  induction oracle with
  | nil => intro buf _; simp [flushGo, endsWithSep]
  | cons r rest ih =>
    intro buf h
    by_cases hm : sep ∈ buf
    · cases r with
      | accepted n =>
        have hn : buf.length ≤ n := h n (List.mem_cons_self _ _)
        have hk : min n (firstChunk sep buf).length =
            (firstChunk sep buf).length :=
          min_eq_right (le_trans (firstChunk_length_le sep buf) hn)
        simp only [flushGo, if_pos hm, hk, firstChunk_take]
        have hrec := ih (buf.drop (firstChunk sep buf).length)
          (fun n' hn' => by
            rw [List.length_drop]
            exact le_trans (by omega) (h n' (List.mem_cons_of_mem _ hn')))
        rcases hw : (flushGo sep rest
            (buf.drop (firstChunk sep buf).length)).2 with _ | ⟨c, cs⟩
        · simpa using endsWithSep_firstChunk sep buf hm
        · rw [hw] at hrec
          exact endsWithSep_append sep _ _ hrec (by simp)
      | wouldBlock =>
        simp only [flushGo, if_pos hm]
        simp [endsWithSep]
      | osError =>
        simp only [flushGo, if_pos hm]
        simp [endsWithSep]
    · simp only [flushGo, if_neg hm]
      simp [endsWithSep]

/-!
## Claim C2 — flush and line boundaries
-/

/-- C2, counterexample: after buffering the line 65, 10, a flush in which
the transport accepts exactly one byte transmits the single byte 65 on
the wire, which does not end at a separator boundary. -/
theorem C2_cex :
    (flushGo 10 [SendResult.accepted 1] [65, 10]).2 = [65] ∧
      endsWithSep 10 [65] = false := by
  decide

/-- C2, amended: flush never transmits a byte of the unterminated final
segment of the buffer (the wire length never exceeds the length of the
separator-terminated head); moreover, when every accepted send takes the
whole offered chunk, the transmitted bytes end exactly at a separator
boundary.  Under short sends the wire can stop mid-line (see the
counterexample), with the rest of that line offered again by the next
send call. -/
theorem C2_thm (sep : Nat) (oracle : List SendResult) (buf : List Nat) :
    (flushGo sep oracle buf).2.length + (unterminated sep buf).length ≤
        buf.length ∧
      ((∀ n, SendResult.accepted n ∈ oracle → buf.length ≤ n) →
        endsWithSep sep (flushGo sep oracle buf).2 = true) :=
  ⟨flush_wire_le sep oracle buf, fun h => flush_full_ends sep oracle buf h⟩

/-- C2, witness at the buffer 65, 10, 66 with a transport accepting five
bytes. -/
theorem C2_wit :
    (flushGo 10 [SendResult.accepted 5] [65, 10, 66]).2.length +
        (unterminated 10 [65, 10, 66]).length ≤ 3 ∧
      endsWithSep 10 (flushGo 10 [SendResult.accepted 5] [65, 10, 66]).2 = true :=
  ⟨(C2_thm 10 [SendResult.accepted 5] [65, 10, 66]).1,
    (C2_thm 10 [SendResult.accepted 5] [65, 10, 66]).2
      (fun n hn => by simp at hn; subst hn; decide)⟩

/-!
## Claim C3 — split invariance of read
-/

/-- C3: the stream 255, 255, 65, 10 delivered in one read yields the line
255, 65, 10 (the IAC escape produces one literal 255), but delivered as
the reads 255, 255, 65 and then 10 it yields the line 10: the retained
remainder is stripped a second time, so the split loses the two bytes
255, 65 from the line.  Lines are not split-invariant. -/
theorem C3_thm :
    runReads 10 ⟨[], []⟩ [[255, 255, 65], [10]] = [[10]] ∧
      runReads 10 ⟨[], []⟩ [[255, 255, 65, 10]] = [[255, 65, 10]] := by
  decide

/-!
## Claim C6 — which text handle_line_client dispatches
-/

/-- C6, counterexample: a filter chain that rewrites the line to the
text `,help` yields that folded value, yet `handle_line_client` delivers
the ORIGINAL line 'h', 'i', LF as passthrough rather than dispatching the
help command the folded value denotes: the dispatched text is the
unfiltered input. -/
theorem C6_cex :
    foldFilters [cexFilter] ['h', 'i', '\n'] =
        some [',', 'h', 'e', 'l', 'p'] ∧
      dispatchLine [['h', 'e', 'l', 'p']] [',', 'h', 'e', 'l', 'p'] =
        ClientAction.command ['h', 'e', 'l', 'p'] [] ∧
      handle_line_client [cexFilter] [['h', 'e', 'l', 'p']] ['h', 'i', '\n'] =
        ClientAction.deliver ['h', 'i', '\n'] ∧
      ClientAction.deliver ['h', 'i', '\n'] ≠
        ClientAction.command ['h', 'e', 'l', 'p'] [] := by
  refine ⟨rfl, rfl, rfl, by decide⟩

/-- C6, amended: the filter fold is consulted only to decide suppression;
whenever it yields a value, the examined and dispatched text is the
original unfiltered line, so any two filter chains that both yield a
value produce the identical dispatch, namely the dispatch of the raw
line. -/
theorem C6_thm (fs gs : List CFilter) (cmds : List (List Char))
    (line : List Char)
    (h1 : (foldFilters fs line).isSome = true)
    (h2 : (foldFilters gs line).isSome = true) :
    handle_line_client fs cmds line = handle_line_client gs cmds line ∧
      handle_line_client fs cmds line = dispatchLine cmds line := by
  unfold handle_line_client
  cases hf : foldFilters fs line with
  | none => rw [hf] at h1; simp at h1
  | some l =>
    cases hg : foldFilters gs line with
    | none => rw [hg] at h2; simp at h2
    | some m => exact ⟨rfl, rfl⟩

/-- C6, witness comparing the rewriting chain with the empty chain on the
line 'h', 'i', LF. -/
theorem C6_wit :
    (foldFilters [cexFilter] ['h', 'i', '\n']).isSome = true ∧
      (foldFilters [] ['h', 'i', '\n']).isSome = true ∧
      handle_line_client [cexFilter] [['h', 'e', 'l', 'p']] ['h', 'i', '\n'] =
        handle_line_client [] [['h', 'e', 'l', 'p']] ['h', 'i', '\n'] :=
  ⟨rfl, rfl,
    (C6_thm [cexFilter] [] [['h', 'e', 'l', 'p']] ['h', 'i', '\n'] rfl rfl).1⟩

/-!
## Claim C7 — atomicity of add_filters
-/

/-- C7, counterexample: a specification whose first entry is valid and
whose second entry is malformed raises the specification error AND leaves
the filter built from the first entry attached: one filter, not zero. -/
theorem C7_cex :
    add_filters
        (PyVal.listv [PyVal.listv [PyVal.str "a", PyVal.dict], PyVal.other])
        ["a"] [] =
      (["a"], some "bad filter entry format") ∧
      (["a"] : List String) ≠ [] := by
  refine ⟨rfl, by decide⟩

/-- A well-formed, known entry makes the loop append its filter and
continue. -/
theorem addFiltersGo_cons_ok (protos : List String) (f : PyVal)
    (rest : List PyVal) (cur : List String) (h : entryOk protos f = true) :
    addFiltersGo protos (f :: rest) cur =
      addFiltersGo protos rest (cur ++ [entryName f]) := by
  rcases f with s | _ | l | _
  · simp [entryOk] at h
  · simp [entryOk] at h
  · rcases l with _ | ⟨a, l⟩
    · simp [entryOk] at h
    · rcases a with s | _ | _ | _
      · rcases l with _ | ⟨b, l2⟩
        · simp [entryOk] at h
        · rcases b with _ | _ | _ | _
          · simp [entryOk] at h
          · rcases l2 with _ | ⟨c, l3⟩
            · simp only [entryOk, decide_eq_true_eq] at h
              simp [addFiltersGo, entryName, h]
            · simp [entryOk] at h
          · simp [entryOk] at h
          · simp [entryOk] at h
      · simp [entryOk] at h
      · simp [entryOk] at h
      · simp [entryOk] at h
  · simp [entryOk] at h

/-- A malformed or unknown entry makes the loop raise at once, leaving
the filter list as it stands. -/
theorem addFiltersGo_cons_err (protos : List String) (f : PyVal)
    (rest : List PyVal) (cur : List String) (h : entryOk protos f = false) :
    ∃ m, addFiltersGo protos (f :: rest) cur = (cur, some m) := by
  rcases f with s | _ | l | _
  · exact ⟨_, rfl⟩
  · exact ⟨_, rfl⟩
  · rcases l with _ | ⟨a, l⟩
    · exact ⟨_, rfl⟩
    · rcases a with s | _ | _ | _
      · rcases l with _ | ⟨b, l2⟩
        · exact ⟨_, rfl⟩
        · rcases b with _ | _ | _ | _
          · exact ⟨_, rfl⟩
          · rcases l2 with _ | ⟨c, l3⟩
            · simp only [entryOk, decide_eq_false_iff_not] at h
              refine ⟨"no such filter", ?_⟩
              simp [addFiltersGo, h]
            · exact ⟨_, rfl⟩
          · exact ⟨_, rfl⟩
          · exact ⟨_, rfl⟩
      · exact ⟨_, rfl⟩
      · exact ⟨_, rfl⟩
      · exact ⟨_, rfl⟩
  · exact ⟨_, rfl⟩

/-- C7, amended: add_filters is not atomic.  On any specification list it
appends exactly the filters of the longest valid head of the list: when
some entry is malformed or unknown it raises the specification error with
the filters from the entries before the first bad one already attached,
and it succeeds without error exactly when every entry is valid. -/
theorem C7_thm (fs : List PyVal) (protos : List String) (cur : List String) :
    (add_filters (PyVal.listv fs) protos cur).1 = cur ++ validNames protos fs ∧
      ((add_filters (PyVal.listv fs) protos cur).2 = none ↔
        ∀ f ∈ fs, entryOk protos f = true) := by
  show (addFiltersGo protos fs cur).1 = cur ++ validNames protos fs ∧
    ((addFiltersGo protos fs cur).2 = none ↔ ∀ f ∈ fs, entryOk protos f = true)
  induction fs generalizing cur with
  | nil => simp [addFiltersGo, validNames]
  | cons f rest ih =>
    by_cases hf : entryOk protos f = true
    · rw [addFiltersGo_cons_ok protos f rest cur hf]
      constructor
      · rw [(ih (cur ++ [entryName f])).1, validNames, if_pos hf]
        simp
      · rw [(ih (cur ++ [entryName f])).2]
        simp [hf]
    · have hf' : entryOk protos f = false := by
        revert hf; cases entryOk protos f <;> simp
      rcases addFiltersGo_cons_err protos f rest cur hf' with ⟨m, hm⟩
      rw [hm]
      constructor
      · rw [validNames, if_neg hf]
        simp
      · simp
        intro hcontra
        rw [hf'] at hcontra
        cases hcontra

/-!
## Claim C8 — end-of-stream reporting
-/

/-- C8: a zero-length successful recv does set the eof flag, but a
ConnectionResetError raised by recv does NOT: ConnectionResetError is a
subclass of OSError in Python and the `except OSError` clause of `read`
precedes the `except ConnectionResetError` clause, so the reset is caught
by the OSError handler, which leaves `has_eof` false. -/
theorem C8_thm :
    (readFull 10 ⟨[], []⟩ [RecvOutcome.connectionReset]).2.2 = false ∧
      (readFull 10 ⟨[], []⟩ [RecvOutcome.data []]).2.2 = true ∧
      isPyOSError RecvOutcome.connectionReset = true := by
  decide

/-!
## Registry helper lemmas (claims C4 and C5)
-/

theorem mem_insertKey {h g : Nat} {l : List Nat} :
    g ∈ insertKey h l ↔ g ∈ l ∨ g = h := by
  unfold insertKey
  by_cases hh : h ∈ l
  · rw [if_pos hh]
    constructor
    · exact fun hg => Or.inl hg
    · rintro (hg | rfl)
      · exact hg
      · exact hh
  · rw [if_neg hh]
    simp [List.mem_append]

theorem nodup_insertKey (h : Nat) (l : List Nat) (hl : l.Nodup) :
    (insertKey h l).Nodup := by
  unfold insertKey
  by_cases hh : h ∈ l
  · rw [if_pos hh]; exact hl
  · rw [if_neg hh]
    simp [List.nodup_append, hl, hh]

/-- The invariant, stated pointwise: membership count equals the
wrapper-key indicator at every handle. -/
theorem inv_char (S : PState) :
    Inv S ↔ (S.wrappers.Nodup ∧ S.servers.Nodup ∧ S.unauth.Nodup ∧
      S.clients.Nodup ∧
      ∀ g, setCount S g = if g ∈ S.wrappers then 1 else 0) := by
  unfold Inv
  constructor
  · rintro ⟨h1, h2, h3, h4, h5⟩
    refine ⟨h1, h2, h3, h4, fun g => ?_⟩
    by_cases hg : Tracked S g
    · rcases h5 g hg with ⟨hgw, hgc⟩
      rw [if_pos hgw, hgc]
    · have hng : g ∉ S.wrappers ∧ g ∉ S.servers ∧ g ∉ S.unauth ∧
          g ∉ S.clients := by
        unfold Tracked at hg
        push_neg at hg
        exact hg
      rw [if_neg hng.1]
      unfold setCount
      rw [if_neg hng.2.1, if_neg hng.2.2.1, if_neg hng.2.2.2]
  · rintro ⟨h1, h2, h3, h4, h5⟩
    refine ⟨h1, h2, h3, h4, fun g hg => ?_⟩
    have hgw : g ∈ S.wrappers := by
      by_cases hw' : g ∈ S.wrappers
      · exact hw'
      · exfalso
        have hc0 := h5 g
        rw [if_neg hw'] at hc0
        rcases hg with h | h | h | h
        · exact hw' h
        · unfold setCount at hc0; rw [if_pos h] at hc0; omega
        · unfold setCount at hc0; rw [if_pos h] at hc0; omega
        · unfold setCount at hc0; rw [if_pos h] at hc0; omega
    have hgc := h5 g
    rw [if_pos hgw] at hgc
    exact ⟨hgw, hgc⟩

/-- One valid registry event preserves the invariant. -/
theorem step_preserves (S : PState) (e : PEvent) (hS : Inv S)
    (hv : ValidEvent S e) : Inv (step S e) := by
  rw [inv_char] at hS ⊢
  obtain ⟨hw, hs, hu, hc, hcount⟩ := hS
  cases e with
  | accept h =>
    obtain ⟨v1, v2, v3, v4⟩ := hv
    simp only [step]
    refine ⟨nodup_insertKey h _ hw, hs, ?_, hc, ?_⟩
    · simp [List.nodup_append, hu, v3]
    · intro g
      by_cases hg : g = h
      · subst hg
        simp [setCount, mem_insertKey, v2, v4]
      · have hold := hcount g
        simp only [setCount, List.mem_append, List.mem_singleton,
          mem_insertKey] at hold ⊢
        simp [hg] at hold ⊢
        exact hold
  | authLine h ok =>
    by_cases hcond : h ∈ S.unauth ∧ ok = true
    · obtain ⟨hun, hok⟩ := hcond
      have hhw : h ∈ S.wrappers := by
        by_cases hw' : h ∈ S.wrappers
        · exact hw'
        · exfalso
          have hc0 := hcount h
          rw [if_neg hw'] at hc0
          unfold setCount at hc0
          rw [if_pos hun] at hc0
          omega
      have hc1 := hcount h
      rw [if_pos hhw] at hc1
      have hns : h ∉ S.servers := by
        intro hmem
        unfold setCount at hc1
        rw [if_pos hmem, if_pos hun] at hc1
        omega
      have hnc : h ∉ S.clients := by
        intro hmem
        unfold setCount at hc1
        rw [if_pos hmem, if_pos hun] at hc1
        omega
      simp only [step, if_pos (And.intro hun hok)]
      refine ⟨hw, hs, hu.filter _, ?_, ?_⟩
      · simp [List.nodup_append, hc, hnc]
      · intro g
        by_cases hg : g = h
        · subst hg
          simp [setCount, hns, hhw, List.mem_filter, List.mem_append]
        · have hold := hcount g
          simp only [setCount, List.mem_filter, List.mem_append,
            List.mem_singleton] at hold ⊢
          simp [hg] at hold ⊢
          exact hold
    · simp only [step, if_neg hcond]
      exact ⟨hw, hs, hu, hc, hcount⟩
  | clientLine g => exact ⟨hw, hs, hu, hc, hcount⟩
  | serverLine g => exact ⟨hw, hs, hu, hc, hcount⟩
  | eofClose h =>
    simp only [step]
    refine ⟨hw.erase h, hs.erase h, hu.erase h, hc.erase h, ?_⟩
    intro g
    by_cases hg : g = h
    · subst hg
      simp [setCount, hs.not_mem_erase, hu.not_mem_erase, hc.not_mem_erase,
        hw.not_mem_erase]
    · have hold := hcount g
      simp only [setCount, List.mem_erase_of_ne hg] at hold ⊢
      exact hold
  | attachServer h =>
    obtain ⟨v1, v2, v3, v4⟩ := hv
    simp only [step]
    refine ⟨nodup_insertKey h _ hw, ?_, hu, hc, ?_⟩
    · simp [List.nodup_append, hs, v2]
    · intro g
      by_cases hg : g = h
      · subst hg
        simp [setCount, mem_insertKey, v3, v4]
      · have hold := hcount g
        simp only [setCount, List.mem_append, List.mem_singleton,
          mem_insertKey] at hold ⊢
        simp [hg] at hold ⊢
        exact hold

/-!
## Claim C4 — the registry invariant
-/

/-- C4: the registry invariant — every tracked stream handle is a
wrapper-dict key and a member of exactly one of the three membership
sets, with duplicate-free lists — holds after processing any readiness
batch of valid events starting from any state satisfying it. -/
theorem C4_thm (S : PState) (es : List PEvent) (hS : Inv S)
    (hv : ValidBatch S es) : Inv (stepBatch S es) := by
  induction es generalizing S with
  | nil => exact hS
  | cons e es ih =>
    obtain ⟨hv1, hv2⟩ := hv
    exact ih (step S e) (step_preserves S e hS hv1) hv2

/-- C4, witness: the empty registry satisfies the invariant, the batch
accept 5, authenticate 5, attach server 9, close 9, client line 5 is
valid from it, and the invariant holds after processing the batch. -/
theorem C4_wit :
    Inv ⟨[], [], [], []⟩ ∧
      ValidBatch ⟨[], [], [], []⟩
        [.accept 5, .authLine 5 true, .attachServer 9, .eofClose 9,
          .clientLine 5] ∧
      Inv (stepBatch ⟨[], [], [], []⟩
        [.accept 5, .authLine 5 true, .attachServer 9, .eofClose 9,
          .clientLine 5]) :=
  ⟨by decide, by decide, C4_thm _ _ (by decide) (by decide)⟩

/-!
## Claim C5 — authentication is monotonic
-/

theorem unauth_step_not (S : PState) (e : PEvent) (h : Nat)
    (hu : h ∉ S.unauth) (he : e ≠ PEvent.accept h) :
    h ∉ (step S e).unauth := by
  cases e with
  | accept g =>
    have hg : g ≠ h := fun hgh => he (by rw [hgh])
    intro hmem
    rcases List.mem_append.mp hmem with h1 | h2
    · exact hu h1
    · exact hg (List.mem_singleton.mp h2).symm
  | authLine g ok =>
    by_cases hcond : g ∈ S.unauth ∧ ok = true
    · simp only [step, if_pos hcond]
      intro hmem
      exact hu (List.mem_of_mem_filter hmem)
    · simp only [step, if_neg hcond]
      exact hu
  | clientLine g => exact hu
  | serverLine g => exact hu
  | eofClose g =>
    intro hmem
    exact hu (List.mem_of_mem_erase hmem)
  | attachServer g => exact hu

theorem clients_step (S : PState) (e : PEvent) (h : Nat)
    (hc : h ∈ S.clients) :
    h ∈ (step S e).clients ∨ e = PEvent.eofClose h := by
  cases e with
  | accept g => exact Or.inl hc
  | authLine g ok =>
    by_cases hcond : g ∈ S.unauth ∧ ok = true
    · left
      simp only [step, if_pos hcond]
      exact List.mem_append.mpr (Or.inl hc)
    · left
      simp only [step, if_neg hcond]
      exact hc
  | clientLine g => exact Or.inl hc
  | serverLine g => exact Or.inl hc
  | eofClose g =>
    by_cases hg : g = h
    · right
      rw [hg]
    · left
      exact (List.mem_erase_of_ne (fun hh => hg hh.symm)).mpr hc
  | attachServer g => exact Or.inl hc

theorem not_unauth_batch (h : Nat) :
    ∀ (es : List PEvent) (S : PState), h ∉ S.unauth →
      (∀ e ∈ es, e ≠ PEvent.accept h) → h ∉ (stepBatch S es).unauth := by
  intro es
  induction es with
  | nil => intro S hu _; exact hu
  | cons e es ih =>
    intro S hu hacc
    exact ih (step S e)
      (unauth_step_not S e h hu (hacc e (List.mem_cons_self _ _)))
      (fun e' he' => hacc e' (List.mem_cons_of_mem _ he'))

theorem clients_batch (h : Nat) :
    ∀ (es : List PEvent) (S : PState), h ∈ S.clients →
      h ∈ (stepBatch S es).clients ∨ PEvent.eofClose h ∈ es := by
  intro es
  induction es with
  | nil => intro S hc; exact Or.inl hc
  | cons e es ih =>
    intro S hc
    rcases clients_step S e h hc with h1 | h2
    · rcases ih (step S e) h1 with h3 | h4
      · exact Or.inl h3
      · exact Or.inr (List.mem_cons_of_mem _ h4)
    · rw [h2]
      exact Or.inr (List.mem_cons_self _ _)

theorem inv_client_not_unauth (S : PState) (h : Nat) (hS : Inv S)
    (hc : h ∈ S.clients) : h ∉ S.unauth := by
  rcases hS with ⟨_, _, _, _, hmem⟩
  rcases hmem h (Or.inr (Or.inr (Or.inr hc))) with ⟨_, hcount⟩
  intro hun
  unfold setCount at hcount
  rw [if_pos hun, if_pos hc] at hcount
  omega

/-- C5: authentication is monotonic.  A stream in the authenticated set
never reappears in the unauthenticated set under any batch of events that
never re-accepts its handle as a fresh connection, and it leaves the
authenticated set only through the end-of-stream removal of that very
stream. -/
theorem C5_thm (S : PState) (h : Nat) (es : List PEvent) (hS : Inv S)
    (hc : h ∈ S.clients) (hacc : ∀ e ∈ es, e ≠ PEvent.accept h) :
    h ∉ (stepBatch S es).unauth ∧
      (h ∈ (stepBatch S es).clients ∨ PEvent.eofClose h ∈ es) :=
  ⟨not_unauth_batch h es S (inv_client_not_unauth S h hS hc) hacc,
    clients_batch h es S hc⟩

/-- C5, witness: client 7 stays authenticated across a batch in which a
different stream connects and authenticates. -/
theorem C5_wit :
    Inv ⟨[7], [], [], [7]⟩ ∧
      7 ∉ (stepBatch ⟨[7], [], [], [7]⟩
        [.clientLine 7, .accept 3, .authLine 3 true]).unauth ∧
      (7 ∈ (stepBatch ⟨[7], [], [], [7]⟩
          [.clientLine 7, .accept 3, .authLine 3 true]).clients ∨
        PEvent.eofClose 7 ∈
          ([.clientLine 7, .accept 3, .authLine 3 true] : List PEvent)) :=
  ⟨by decide,
    (C5_thm ⟨[7], [], [], [7]⟩ 7 [.clientLine 7, .accept 3, .authLine 3 true]
      (by decide) (by decide) (by decide)).1,
    (C5_thm ⟨[7], [], [], [7]⟩ 7 [.clientLine 7, .accept 3, .authLine 3 true]
      (by decide) (by decide) (by decide)).2⟩

/-!
## Claim C9 — start_connection
-/

/-- C9: a server already connecting or connected gets the failure result
back and no new attempt; an idle server is marked connecting with exactly
one new attempt launched; two successive calls on an idle server launch
exactly one attempt in total. -/
theorem C9_thm (s : ServerConn) :
    ((s.connecting = true ∨ s.connected = true) →
      start_connection s = (s, false)) ∧
    (s.connecting = false → s.connected = false →
      start_connection s =
        ({ s with connecting := true, attempts := s.attempts + 1 }, true)) ∧
    (s.connecting = false → s.connected = false →
      (start_connection (start_connection s).1).1.attempts = s.attempts + 1) := by
  rcases s with ⟨cg, cd, a⟩
  cases cg <;> cases cd <;> simp [start_connection]

/-- C9, witness at the idle server with zero prior attempts. -/
theorem C9_wit :
    start_connection ⟨false, false, 0⟩ =
        ((⟨true, false, 1⟩ : ServerConn), true) ∧
      (start_connection (start_connection ⟨false, false, 0⟩).1).1.attempts = 1 :=
  ⟨(C9_thm ⟨false, false, 0⟩).2.1 rfl rfl, (C9_thm ⟨false, false, 0⟩).2.2 rfl rfl⟩

/-!
## Claim C10 — write preconditions
-/

/-- C10, counterexample: `tell_err` on a detached, disconnected endpoint
does fail the flush assertion and transmits nothing, but the reply bytes
have already been appended to the outbound buffer by then, so a reply IS
queued to an endpoint whose transport is gone. -/
theorem C10_cex :
    (tell_err 10 [] ⟨[], false, false⟩ [88]).1.sendBuf =
        [33, 33, 32, 88, 13, 10] ∧
      (tell_err 10 [] ⟨[], false, false⟩ [88]).2.2 = true ∧
      ([33, 33, 32, 88, 13, 10] : List Nat) ≠ [] := by
  decide

/-- C10, amended: writes append to the outbound buffer first and then
flush asserts that a socket is attached and the connected flag holds; on
a detached or disconnected endpoint the assertion fails, nothing reaches
the wire, and the bytes stay queued in the buffer; conversely a write
that did not fail the assertion ran on an attached, connected endpoint. -/
theorem C10_thm (sep : Nat) (oracle : List SendResult) (c : Conn)
    (data : List Nat) :
    (¬ (c.hasSocket = true ∧ c.connected = true) →
      writeBytes sep oracle c data =
        ({ c with sendBuf := c.sendBuf ++ data }, [], true)) ∧
    ((writeBytes sep oracle c data).2.2 = false →
      c.hasSocket = true ∧ c.connected = true) := by
  constructor
  · intro h
    unfold writeBytes
    rw [if_neg h]
  · intro h
    by_cases hc : c.hasSocket = true ∧ c.connected = true
    · exact hc
    · unfold writeBytes at h
      rw [if_neg hc] at h
      simp at h

/-- C10, witness at a detached, disconnected endpoint. -/
theorem C10_wit :
    writeBytes 10 [] ⟨[7], false, true⟩ [65] =
        ((⟨[7, 65], false, true⟩ : Conn), [], true) ∧
      ¬ ((false : Bool) = true ∧ (true : Bool) = true) :=
  ⟨(C10_thm 10 [] ⟨[7], false, true⟩ [65]).1 (by decide), by decide⟩

end Proxy
